import Mathlib

/-!
Verification of the configuration-resolution and graph-construction core of
`gitlabci-viz.py` (functions `parse_includes` and `build_graph`).

The YAML data model is embedded as a mutual inductive `Yaml` / `YSeq` / `YMap`:
Python dictionaries become insertion-ordered association structures with string
keys (YAML mapping keys are strings throughout this program: `build_graph`
calls `job_name.startswith`), Python lists become `YSeq`.  The filesystem is a
parameter `fs : String → Option Yaml` mapping a path to the parsed content of
the file stored there (`none` models a missing file, raising
`FileNotFoundError` in `open`).  Parsing errors of YAML syntax are below this
interface: `fs` yields already-parsed values.

`parse_includes` recurses into included files; Python's unbounded recursion is
modelled with a fuel parameter (`outOfFuel` stands for non-termination on
cyclic includes).  Exceptions become `Except ResolveError`.
-/

mutual
inductive Yaml where
  | ystr : String → Yaml
  | yint : Int → Yaml
  | ybool : Bool → Yaml
  | ynull : Yaml
  | yseq : YSeq → Yaml
  | ymap : YMap → Yaml
deriving DecidableEq
inductive YSeq where
  | nil : YSeq
  | cons : Yaml → YSeq → YSeq
deriving DecidableEq
inductive YMap where
  | nil : YMap
  | cons : String → Yaml → YMap → YMap
deriving DecidableEq
end

namespace YSeq

/-- The entries of a `YSeq` as a Lean list. -/
def toList : YSeq → List Yaml
  | .nil => []
  | .cons a rest => a :: toList rest

end YSeq

namespace YMap

/-- Python `m[k]` / `k in m`: the value at the first binding of `k`. -/
def get : YMap → String → Option Yaml
  | .nil, _ => none
  | .cons k v rest, key => if k = key then some v else get rest key

/-- Python `m[k] = v`: replace the value at an existing binding in place
(keys keep their original position, as in a Python dict), else append. -/
def set : YMap → String → Yaml → YMap
  | .nil, k, v => .cons k v .nil
  | .cons k0 v0 rest, k, v =>
      if k0 = k then .cons k0 v rest else .cons k0 v0 (set rest k v)

/-- Python `del m[k]`: remove the binding of `k` (a Python dict has at most
one). -/
def del : YMap → String → YMap
  | .nil, _ => .nil
  | .cons k0 v0 rest, k => if k0 = k then rest else .cons k0 v0 (del rest k)

/-- Python `m.update(inc)`: set every binding of `inc` in `m`, in order. -/
def update : YMap → YMap → YMap
  | m, .nil => m
  | m, .cons k v rest => update (set m k v) rest

/-- The dict comprehension `{k: v for k, v in m.items() if k != 'include'}`. -/
def dropInclude : YMap → YMap
  | .nil => .nil
  | .cons k v rest =>
      if k = "include" then dropInclude rest else .cons k v (dropInclude rest)

/-- Python `list(m.keys())`. -/
def keys : YMap → List String
  | .nil => []
  | .cons k _ rest => k :: keys rest

end YMap

/-- Whether one character list is a prefix of another. -/
def charListPrefix : List Char → List Char → Bool
  | [], _ => true
  | _ :: _, [] => false
  | a :: as, b :: bs => if a = b then charListPrefix as bs else false

/-- `s.startswith(p)` on strings, via the underlying character lists. -/
def strStartsWith (s p : String) : Bool :=
  charListPrefix p.data s.data

/-- `s.endswith(p)` on strings, via the underlying character lists. -/
def strEndsWith (s p : String) : Bool :=
  charListPrefix p.data.reverse s.data.reverse

/-- `os.path.join(a, b)` for a single relative or absolute component `b`
(POSIX semantics, as used on the include paths). -/
def pathJoin (a b : String) : String :=
  if strStartsWith b "/" then b
  else if a = "" then b
  else if strEndsWith a "/" then a ++ b
  else a ++ "/" ++ b

/-- `os.path.dirname(p)` (POSIX semantics): the part of `p` before its last
separator, with trailing separators stripped unless the result is all
separators. -/
def dirname (p : String) : String :=
  let cs := p.data
  let tailLen := (cs.reverse.takeWhile (fun c => c ≠ '/')).length
  let head := cs.take (cs.length - tailLen)
  if head.isEmpty then ""
  else if head.all (fun c => c = '/') then String.mk head
  else String.mk ((head.reverse.dropWhile (fun c => c = '/')).reverse)

/-- Failure modes of include resolution.  `includeNotFound` is the
`FileNotFoundError` raised by `open`; `attributeErrorItems` is the
`AttributeError` raised by `.items()` when an included file holds a
non-mapping; `typeErrorJoin` is the `TypeError` raised by `os.path.join`
on a non-string `local` value; `outOfFuel` models the unbounded recursion
on cyclic include chains. -/
inductive ResolveError where
  | includeNotFound : String → ResolveError
  | attributeErrorItems : String → ResolveError
  | typeErrorJoin : ResolveError
  | outOfFuel : ResolveError
deriving DecidableEq

/-- Lines 15-16 of `parse_includes`: `if not isinstance(includes, list):
includes = [includes]`. -/
def normalizeInclude : Yaml → YSeq
  | .yseq l => l
  | single => .cons single .nil

/-- The loop `for include in includes` of `parse_includes` (lines 18-26),
with the recursive call on nested includes abstracted as the parameter `pi`.
An entry that is a mapping with a string `local` key is joined against
`base_dir`, loaded from `fs`, recursively resolved, and merged into the
accumulating document with its top-level `include` key dropped; any other
entry is skipped. -/
def processIncludes (pi : Yaml → String → Except ResolveError Yaml)
    (fs : String → Option Yaml) :
    YSeq → YMap → String → Except ResolveError YMap
  | .nil, data, _ => .ok data
  | .cons inc rest, data, base_dir =>
    match inc with
    | .ymap im =>
      match im.get "local" with
      | some (.ystr rel) =>
        let include_path := pathJoin base_dir rel
        match fs include_path with
        | none => .error (.includeNotFound include_path)
        | some content =>
          match pi content (dirname include_path) with
          | .error e => .error e
          | .ok included_data =>
            match included_data with
            | .ymap incm =>
                processIncludes pi fs rest (data.update incm.dropInclude) base_dir
            | _ => .error (.attributeErrorItems include_path)
      | some _ => .error .typeErrorJoin
      | none => processIncludes pi fs rest data base_dir
    | _ => processIncludes pi fs rest data base_dir

/-- `parse_includes(data, base_dir)` (lines 10-31): if `data` is a mapping
with an `include` key, normalize the key's value to a sequence of entries,
process each entry in order, and finally delete the `include` key; any other
`data` is returned unchanged.  `fuel` bounds the include-chain depth. -/
def parse_includes (fs : String → Option Yaml) :
    Nat → Yaml → String → Except ResolveError Yaml
  | 0, _, _ => .error .outOfFuel
  | fuel + 1, data, base_dir =>
    match data with
    | .ymap m =>
      match m.get "include" with
      | some includesVal =>
        match processIncludes (parse_includes fs fuel) fs
            (normalizeInclude includesVal) m base_dir with
        | .ok merged => .ok (.ymap (merged.del "include"))
        | .error e => .error e
      | none => .ok (.ymap m)
    | other => .ok other

/-- Node classification tag of the graph: `hidden` for templates, `job` for
runnable jobs. -/
inductive NodeType where
  | hidden : NodeType
  | job : NodeType
deriving DecidableEq

/-- The `networkx.DiGraph` as `build_graph` uses it: an insertion-ordered
node list (identifier and classification; `none` for a node inserted by
`add_edge` without attributes) and an insertion-ordered edge list
(source, target, label).  The rendering-only attributes set by
`build_graph` (`label`, `color`, `shape`, `edge_color`) are presentation
data outside the modelled core; only `type` is kept. -/
structure Graph where
  nodes : List (Yaml × Option NodeType)
  edges : List (Yaml × Yaml × String)
deriving DecidableEq

namespace Graph

/-- `n in graph`: node membership by identifier. -/
def hasNode (g : Graph) (n : Yaml) : Bool :=
  decide (n ∈ g.nodes.map Prod.fst)

/-- `graph.add_node(n, type=t, ...)`: update the attributes in place if the
node exists, else append it. -/
def addNode (g : Graph) (n : Yaml) (t : NodeType) : Graph :=
  if g.hasNode n then
    { g with nodes := g.nodes.map (fun p => if p.1 = n then (p.1, some t) else p) }
  else
    { g with nodes := g.nodes ++ [(n, some t)] }

/-- The node insertion `add_edge` performs on a missing endpoint: appended
with no attributes. -/
def ensureNode (g : Graph) (n : Yaml) : Graph :=
  if g.hasNode n then g else { g with nodes := g.nodes ++ [(n, none)] }

/-- Edge membership by endpoints. -/
def hasEdge (g : Graph) (u v : Yaml) : Bool :=
  decide ((u, v) ∈ g.edges.map (fun e => (e.1, e.2.1)))

/-- Overwriting the attributes of the edge `u → v` in place. -/
def relabelEdge (u v : Yaml) (l : String) (e : Yaml × Yaml × String) :
    Yaml × Yaml × String :=
  if e.1 = u ∧ e.2.1 = v then (e.1, e.2.1, l) else e

/-- `graph.add_edge(u, v, label=l)`: insert missing endpoints, then update
the labelled edge in place if it exists, else append it. -/
def addEdge (g : Graph) (u v : Yaml) (l : String) : Graph :=
  let g1 := (g.ensureNode u).ensureNode v
  if g1.hasEdge u v then
    { g1 with edges := g1.edges.map (relabelEdge u v l) }
  else
    { g1 with edges := g1.edges ++ [(u, v, l)] }

/-- The classification tag recorded for identifier `n`, if any. -/
def tagOf (g : Graph) (n : Yaml) : Option NodeType :=
  match g.nodes.find? (fun p => decide (p.1 = n)) with
  | some p => p.2
  | none => none

/-- The node identifiers of the graph, in insertion order. -/
def names (g : Graph) : List Yaml :=
  g.nodes.map Prod.fst

end Graph

/-- Two edges with distinct endpoint pairs: the `networkx` edge set keeps at
most one edge per ordered node pair. -/
def edgeEndsDistinct (a b : Yaml × Yaml × String) : Prop :=
  ¬(a.1 = b.1 ∧ a.2.1 = b.2.1)

/-- First pass of `build_graph` (lines 45-59): one node per document key,
classified `hidden` when the key starts with `.`, else `job`. -/
def addNodesPass : YMap → Graph → Graph
  | .nil, g => g
  | .cons job_name _ rest, g =>
    let g1 :=
      if strStartsWith job_name "." then g.addNode (.ystr job_name) .hidden
      else g.addNode (.ystr job_name) .job
    addNodesPass rest g1

/-- The loop `for parent in extends` (lines 69-80): auto-create a missing
parent node as `hidden`, then add the `extends`-labelled edge from the
parent to the current job. -/
def addParents : YSeq → Graph → String → Graph
  | .nil, g, _ => g
  | .cons parent rest, g, job_name =>
    let g1 := if g.hasNode parent then g else g.addNode parent .hidden
    let g2 := g1.addEdge parent (.ystr job_name) "extends"
    addParents rest g2 job_name

/-- Lines 64-68 of `build_graph`: a string `extends` value is wrapped into a
one-element sequence, a sequence is used as is, anything else yields no
parents. -/
def normalizeExtends : Yaml → Option YSeq
  | .ystr s => some (.cons (.ystr s) .nil)
  | .yseq l => some l
  | _ => none

/-- Second pass of `build_graph` (lines 62-80): for every key whose value is
a mapping with an `extends` key, process its normalized parent list. -/
def addEdgesPass : YMap → Graph → Graph
  | .nil, g => g
  | .cons job_name job_config rest, g =>
    let g1 :=
      match job_config with
      | .ymap jc =>
        match jc.get "extends" with
        | some ext =>
          match normalizeExtends ext with
          | some parents => addParents parents g job_name
          | none => g
        | none => g
      | _ => g
    addEdgesPass rest g1

/-- `build_graph(data)` (lines 40-82): node pass then edge pass over the
resolved document. -/
def build_graph (data : YMap) : Graph :=
  addEdgesPass data (addNodesPass data ⟨[], []⟩)

/-- Whether a value is a mapping (`isinstance(x, dict)`). -/
def Yaml.isMap : Yaml → Bool
  | .ymap _ => true
  | _ => false

/-- The leading-character classification rule of the first pass of
`build_graph`. -/
def classify (s : String) : NodeType :=
  if strStartsWith s "." then .hidden else .job

/-- The bindings of a mapping as a Lean list (`m.items()`). -/
def YMap.entries : YMap → List (String × Yaml)
  | .nil => []
  | .cons k v rest => (k, v) :: entries rest

/-- The parent identifiers a single job configuration contributes in the
second pass of `build_graph`: the normalized `extends` list when the
configuration is a mapping with an `extends` key, nothing otherwise. -/
def parentsOf (cfg : Yaml) : List Yaml :=
  match cfg with
  | .ymap jc =>
    match jc.get "extends" with
    | some ext =>
      match normalizeExtends ext with
      | some parents => parents.toList
      | none => []
    | none => []
  | _ => []

/-- All identifiers referenced by any `extends` value of the document, in
document order. -/
def referencedParents : YMap → List Yaml
  | .nil => []
  | .cons _ cfg rest => parentsOf cfg ++ referencedParents rest

mutual
/-- Whether a value contains an `include` key at any nesting depth. -/
def hasIncludeKeyY : Yaml → Bool
  | .yseq l => hasIncludeKeyS l
  | .ymap m => hasIncludeKeyM m
  | _ => false
/-- Whether a sequence contains an `include` key at any nesting depth. -/
def hasIncludeKeyS : YSeq → Bool
  | .nil => false
  | .cons a rest => hasIncludeKeyY a || hasIncludeKeyS rest
/-- Whether a mapping contains an `include` key at any nesting depth. -/
def hasIncludeKeyM : YMap → Bool
  | .nil => false
  | .cons k v rest =>
    if k = "include" then true else hasIncludeKeyY v || hasIncludeKeyM rest
end

/-- Whether the include-entry loop of `parse_includes` skips an entry
without touching the filesystem: everything except a mapping holding a
`local` key is skipped. -/
def entrySkipped (e : Yaml) : Bool :=
  match e with
  | .ymap im => (im.get "local").isNone
  | _ => true

/-- Left-biased choice between two lookups. -/
def firstSome (a b : Option Yaml) : Option Yaml :=
  match a with
  | some v => some v
  | none => b

/-- State-passing form of the first pass of `build_graph`: alongside the
graph, each iteration returns the document entry exactly as it left it,
so the second component is the document as it stands after the pass. -/
def addNodesPassSt : YMap → Graph → Graph × YMap
  | .nil, g => (g, .nil)
  | .cons job_name v rest, g =>
    let g1 :=
      if strStartsWith job_name "." then g.addNode (.ystr job_name) .hidden
      else g.addNode (.ystr job_name) .job
    let r := addNodesPassSt rest g1
    (r.1, .cons job_name v r.2)

/-- State-passing form of the second pass of `build_graph`: each iteration
returns the job configuration it read. -/
def addEdgesPassSt : YMap → Graph → Graph × YMap
  | .nil, g => (g, .nil)
  | .cons job_name job_config rest, g =>
    let step : Graph × Yaml :=
      match job_config with
      | .ymap jc =>
        match jc.get "extends" with
        | some ext =>
          match normalizeExtends ext with
          | some parents => (addParents parents g job_name, .ymap jc)
          | none => (g, .ymap jc)
        | none => (g, .ymap jc)
      | other => (g, other)
    let r := addEdgesPassSt rest step.1
    (r.1, .cons job_name step.2 r.2)

/-- State-passing form of `build_graph`, threading the document through
both passes so that mutation of the input would be visible in the second
component. -/
def build_graph_st (data : YMap) : Graph × YMap :=
  let r1 := addNodesPassSt data ⟨[], []⟩
  let r2 := addEdgesPassSt r1.2 r1.1
  (r2.1, r2.2)

/-- Spine induction for `YMap`: the proofs below never descend into the
`Yaml` values, so the other motives of the mutual recursor are trivial. -/
theorem YMap.mapConsInduction {P : YMap → Prop} (hnil : P .nil)
    (hcons : ∀ k v rest, P rest → P (.cons k v rest)) (m : YMap) : P m :=
  @YMap.rec (fun _ => True) (fun _ => True) P
    (fun _ => trivial) (fun _ => trivial) (fun _ => trivial) trivial
    (fun _ _ => trivial) (fun _ _ => trivial)
    trivial (fun _ _ _ _ => trivial)
    hnil (fun k v rest _ ih => hcons k v rest ih) m

/-- Spine induction for `YSeq`. -/
theorem YSeq.seqConsInduction {P : YSeq → Prop} (hnil : P .nil)
    (hcons : ∀ a rest, P rest → P (.cons a rest)) (l : YSeq) : P l :=
  @YSeq.rec (fun _ => True) P (fun _ => True)
    (fun _ => trivial) (fun _ => trivial) (fun _ => trivial) trivial
    (fun _ _ => trivial) (fun _ _ => trivial)
    hnil (fun a rest _ ih => hcons a rest ih)
    trivial (fun _ _ _ _ _ => trivial) l

namespace YMap

theorem get_set_self (m : YMap) (k : String) (v : Yaml) :
    (m.set k v).get k = some v := by
  induction m using YMap.mapConsInduction with
  | hnil => simp [set, get]
  | hcons k0 v0 rest ih =>
    by_cases h : k0 = k
    · subst h; simp [set, get]
    · simp [set, get, h, ih]

theorem get_set_ne (m : YMap) (k0 k : String) (v : Yaml) (h : k0 ≠ k) :
    (m.set k0 v).get k = m.get k := by
  induction m using YMap.mapConsInduction with
  | hnil => simp [set, get, h]
  | hcons k1 v1 rest ih =>
    by_cases h1 : k1 = k0
    · subst h1; simp [set, get, h]
    · simp [set, get, h1, ih]

theorem get_del_ne (m : YMap) (k0 k : String) (h : k0 ≠ k) :
    (m.del k0).get k = m.get k := by
  induction m using YMap.mapConsInduction with
  | hnil => simp [del, get]
  | hcons k1 v1 rest ih =>
    by_cases h1 : k1 = k0
    · subst h1; simp [del, get, h, ih]
    · simp [del, get, h1, ih]

theorem get_eq_none_iff (m : YMap) (k : String) :
    m.get k = none ↔ k ∉ m.keys := by
  induction m using YMap.mapConsInduction with
  | hnil => simp [get, keys]
  | hcons k1 v1 rest ih =>
    by_cases h1 : k1 = k
    · subst h1; simp [get, keys]
    · simp [get, keys, h1, ih, Ne.symm h1]

theorem get_del_self (m : YMap) (k : String) (hnd : m.keys.Nodup) :
    (m.del k).get k = none := by
  induction m using YMap.mapConsInduction with
  | hnil => simp [del, get]
  | hcons k1 v1 rest ih =>
    rw [keys, List.nodup_cons] at hnd
    by_cases h1 : k1 = k
    · subst h1
      rw [del, if_pos rfl, get_eq_none_iff]
      exact hnd.1
    · simp [del, get, h1, ih hnd.2]

theorem keys_set (m : YMap) (k : String) (v : Yaml) :
    (m.set k v).keys = if k ∈ m.keys then m.keys else m.keys ++ [k] := by
  induction m using YMap.mapConsInduction with
  | hnil => simp [set, keys]
  | hcons k1 v1 rest ih =>
    by_cases h1 : k1 = k
    · subst h1; simp [set, keys]
    · simp only [set, if_neg h1, keys, ih, List.mem_cons]
      by_cases hm : k ∈ rest.keys
      · simp [hm, Ne.symm h1]
      · simp [hm, Ne.symm h1]

theorem nodup_keys_set (m : YMap) (k : String) (v : Yaml)
    (hnd : m.keys.Nodup) : (m.set k v).keys.Nodup := by
  rw [keys_set]
  by_cases hm : k ∈ m.keys
  · simpa [hm] using hnd
  · simp only [if_neg hm, List.nodup_append]
    refine ⟨hnd, List.nodup_singleton k, ?_⟩
    intro a ha hb
    rw [List.mem_singleton] at hb
    exact hm (hb ▸ ha)

theorem nodup_keys_update (m inc : YMap) (hnd : m.keys.Nodup) :
    (m.update inc).keys.Nodup := by
  induction inc using YMap.mapConsInduction generalizing m with
  | hnil => simpa [update] using hnd
  | hcons k v rest ih => exact ih (m.set k v) (nodup_keys_set m k v hnd)

theorem get_update_of_none (m inc : YMap) (k : String) (h : inc.get k = none) :
    (m.update inc).get k = m.get k := by
  induction inc using YMap.mapConsInduction generalizing m with
  | hnil => simp [update]
  | hcons k1 v1 rest ih =>
    rw [get] at h
    by_cases h1 : k1 = k
    · simp [h1] at h
    · rw [if_neg h1] at h
      rw [update, ih (m.set k1 v1) h, get_set_ne m k1 k v1 h1]

theorem get_update (m inc : YMap) (k : String) (hnd : inc.keys.Nodup) :
    (m.update inc).get k = firstSome (inc.get k) (m.get k) := by
  induction inc using YMap.mapConsInduction generalizing m with
  | hnil => simp [update, get, firstSome]
  | hcons k1 v1 rest ih =>
    rw [keys, List.nodup_cons] at hnd
    by_cases h1 : k1 = k
    · subst h1
      have hrest : rest.get k1 = none := (get_eq_none_iff rest k1).2 hnd.1
      rw [update, get_update_of_none (m.set k1 v1) rest k1 hrest,
        get_set_self, get, if_pos rfl, firstSome]
    · rw [update, ih (m.set k1 v1) hnd.2, get_set_ne m k1 k v1 h1, get, if_neg h1]

theorem get_dropInclude_ne (m : YMap) (k : String) (h : k ≠ "include") :
    m.dropInclude.get k = m.get k := by
  induction m using YMap.mapConsInduction with
  | hnil => simp [dropInclude, get]
  | hcons k1 v1 rest ih =>
    by_cases h1 : k1 = "include"
    · subst h1; simp [dropInclude, get, Ne.symm h, ih]
    · simp [dropInclude, get, h1, ih]

theorem dropInclude_eq_self (m : YMap) (h : m.get "include" = none) :
    m.dropInclude = m := by
  induction m using YMap.mapConsInduction with
  | hnil => simp [dropInclude]
  | hcons k1 v1 rest ih =>
    rw [get] at h
    by_cases h1 : k1 = "include"
    · simp [h1] at h
    · rw [if_neg h1] at h
      simp [dropInclude, h1, ih h]

theorem mem_keys_of_mem_entries (m : YMap) (k : String) (v : Yaml)
    (h : (k, v) ∈ m.entries) : k ∈ m.keys := by
  induction m using YMap.mapConsInduction with
  | hnil => simp [entries] at h
  | hcons k1 v1 rest ih =>
    rw [entries, List.mem_cons] at h
    rcases h with h | h
    · rw [keys]; exact (Prod.mk.injEq _ _ _ _ ▸ h).1 ▸ List.mem_cons_self _ _
    · rw [keys]; exact List.mem_cons_of_mem _ (ih h)

theorem get_eq_of_mem_entries (m : YMap) (k : String) (v : Yaml)
    (hnd : m.keys.Nodup) (h : (k, v) ∈ m.entries) : m.get k = some v := by
  induction m using YMap.mapConsInduction with
  | hnil => simp [entries] at h
  | hcons k1 v1 rest ih =>
    rw [keys, List.nodup_cons] at hnd
    rw [entries, List.mem_cons] at h
    rcases h with h | h
    · obtain ⟨hk, hv⟩ := Prod.mk.injEq k v k1 v1 ▸ h
      subst hk
      subst hv
      simp [get]
    · have hk1 : k1 ≠ k := by
        intro he
        exact hnd.1 (he ▸ mem_keys_of_mem_entries rest k v h)
      rw [get, if_neg hk1]
      exact ih hnd.2 h

end YMap

theorem parse_includes_no_include (fs : String → Option Yaml) (fuel : Nat)
    (m : YMap) (base : String) (h : m.get "include" = none) :
    parse_includes fs (fuel + 1) (.ymap m) base = .ok (.ymap m) := by
  simp [parse_includes, h]

theorem parse_includes_not_map (fs : String → Option Yaml) (fuel : Nat)
    (v : Yaml) (base : String) (h : v.isMap = false) :
    parse_includes fs (fuel + 1) v base = .ok v := by
  cases v with
  | ymap m => simp [Yaml.isMap] at h
  | ystr s => rfl
  | yint n => rfl
  | ybool b => rfl
  | ynull => rfl
  | yseq l => rfl

theorem processIncludes_skipped (pi : Yaml → String → Except ResolveError Yaml)
    (fs : String → Option Yaml) (l : YSeq) :
    ∀ m base, (∀ e ∈ l.toList, entrySkipped e = true) →
      processIncludes pi fs l m base = .ok m := by
  induction l using YSeq.seqConsInduction with
  | hnil => intro m base _; rfl
  | hcons a rest ih =>
    intro m base h
    have ha : entrySkipped a = true := h a (by simp [YSeq.toList])
    have hrest : ∀ e ∈ rest.toList, entrySkipped e = true := by
      intro e he; exact h e (by simp [YSeq.toList, he])
    cases a with
    | ymap im =>
      rw [entrySkipped, Option.isNone_iff_eq_none] at ha
      simp [processIncludes, ha, ih m base hrest]
    | ystr s => simp [processIncludes, ih m base hrest]
    | yint n => simp [processIncludes, ih m base hrest]
    | ybool b => simp [processIncludes, ih m base hrest]
    | ynull => simp [processIncludes, ih m base hrest]
    | yseq l2 => simp [processIncludes, ih m base hrest]

theorem processIncludes_nodup (pi : Yaml → String → Except ResolveError Yaml)
    (fs : String → Option Yaml) (l : YSeq) :
    ∀ m base merged, processIncludes pi fs l m base = .ok merged →
      m.keys.Nodup → merged.keys.Nodup := by
  induction l using YSeq.seqConsInduction with
  | hnil =>
    intro m base merged h hnd
    rw [processIncludes] at h
    cases h
    exact hnd
  | hcons a rest ih =>
    intro m base merged h hnd
    cases a with
    | ymap im =>
      cases hlo : im.get "local" with
      | none =>
        rw [processIncludes, hlo] at h
        exact ih m base merged h hnd
      | some lv =>
        cases lv with
        | ystr rel =>
          cases hf : fs (pathJoin base rel) with
          | none => simp [processIncludes, hlo, hf] at h
          | some content =>
            cases hpi : pi content (dirname (pathJoin base rel)) with
            | error e => simp [processIncludes, hlo, hf, hpi] at h
            | ok included =>
              cases included with
              | ymap incm =>
                simp only [processIncludes, hlo, hf, hpi] at h
                exact ih _ base merged h
                  (YMap.nodup_keys_update m incm.dropInclude hnd)
              | ystr s => simp [processIncludes, hlo, hf, hpi] at h
              | yint n => simp [processIncludes, hlo, hf, hpi] at h
              | ybool b => simp [processIncludes, hlo, hf, hpi] at h
              | ynull => simp [processIncludes, hlo, hf, hpi] at h
              | yseq l2 => simp [processIncludes, hlo, hf, hpi] at h
        | yint n => simp [processIncludes, hlo] at h
        | ybool b => simp [processIncludes, hlo] at h
        | ynull => simp [processIncludes, hlo] at h
        | yseq l2 => simp [processIncludes, hlo] at h
        | ymap m2 => simp [processIncludes, hlo] at h
    | ystr s => exact ih m base merged h hnd
    | yint n => exact ih m base merged h hnd
    | ybool b => exact ih m base merged h hnd
    | ynull => exact ih m base merged h hnd
    | yseq l2 => exact ih m base merged h hnd

theorem parse_includes_ok_shape (fs : String → Option Yaml) (fuel : Nat)
    (m : YMap) (base : String) (r : Yaml) (hnd : m.keys.Nodup)
    (h : parse_includes fs fuel (.ymap m) base = .ok r) :
    ∃ m2, r = .ymap m2 ∧ m2.get "include" = none := by
  cases fuel with
  | zero => simp [parse_includes] at h
  | succ fuel =>
    cases hinc : m.get "include" with
    | none =>
      simp only [parse_includes, hinc] at h
      cases h
      exact ⟨m, rfl, hinc⟩
    | some iv =>
      cases hp : processIncludes (parse_includes fs fuel) fs
          (normalizeInclude iv) m base with
      | error e => simp [parse_includes, hinc, hp] at h
      | ok merged =>
        simp only [parse_includes, hinc, hp] at h
        cases h
        exact ⟨merged.del "include", rfl,
          YMap.get_del_self merged "include"
            (processIncludes_nodup _ fs _ m base merged hp hnd)⟩

theorem resolve_two_includes (fs : String → Option Yaml) (fuel : Nat)
    (m im1 im2 M1 M2 : YMap) (base p1 p2 : String)
    (hinc : m.get "include" =
      some (.yseq (.cons (.ymap im1) (.cons (.ymap im2) .nil))))
    (hl1 : im1.get "local" = some (.ystr p1))
    (hf1 : fs (pathJoin base p1) = some (.ymap M1))
    (hM1 : M1.get "include" = none)
    (hl2 : im2.get "local" = some (.ystr p2))
    (hf2 : fs (pathJoin base p2) = some (.ymap M2))
    (hM2 : M2.get "include" = none) :
    parse_includes fs (fuel + 2) (.ymap m) base =
      .ok (.ymap (((m.update M1).update M2).del "include")) := by
  have hd1 : M1.dropInclude = M1 := YMap.dropInclude_eq_self M1 hM1
  have hd2 : M2.dropInclude = M2 := YMap.dropInclude_eq_self M2 hM2
  show parse_includes fs ((fuel + 1) + 1) (.ymap m) base = _
  simp only [parse_includes, hinc, normalizeInclude, processIncludes,
    hl1, hf1, hM1, hd1, hl2, hf2, hM2, hd2]

namespace Graph

theorem hasNode_iff (g : Graph) (n : Yaml) :
    g.hasNode n = true ↔ n ∈ g.names := by
  simp [hasNode, names]

theorem hasNode_eq_false_iff (g : Graph) (n : Yaml) :
    g.hasNode n = false ↔ n ∉ g.names := by
  simp [hasNode, names]

theorem addNode_nodes_of_new (g : Graph) (n : Yaml) (t : NodeType)
    (h : g.hasNode n = false) :
    (g.addNode n t).nodes = g.nodes ++ [(n, some t)] := by
  simp [addNode, h]

theorem ensureNode_of_hasNode (g : Graph) (n : Yaml) (h : g.hasNode n = true) :
    g.ensureNode n = g := by
  simp [ensureNode, h]

theorem ensureNode_edges (g : Graph) (n : Yaml) :
    (g.ensureNode n).edges = g.edges := by
  unfold ensureNode
  split <;> rfl

theorem names_append {g g2 : Graph} {extra : List (Yaml × Option NodeType)}
    (h : g2.nodes = g.nodes ++ extra) :
    g2.names = g.names ++ extra.map Prod.fst := by
  rw [names, h, List.map_append, names]

theorem hasNode_of_append {g g2 : Graph} {extra : List (Yaml × Option NodeType)}
    (h : g2.nodes = g.nodes ++ extra) (n : Yaml) (hn : g.hasNode n = true) :
    g2.hasNode n = true := by
  rw [hasNode_iff] at hn ⊢
  rw [names_append h]
  exact List.mem_append_left _ hn

theorem tagOf_of_append {g g2 : Graph} {extra : List (Yaml × Option NodeType)}
    (h : g2.nodes = g.nodes ++ extra) {n : Yaml} {t : NodeType}
    (ht : g.tagOf n = some t) : g2.tagOf n = some t := by
  rw [tagOf] at ht ⊢
  rw [h, List.find?_append]
  cases hf : g.nodes.find? (fun p => decide (p.1 = n)) with
  | none => rw [hf] at ht; exact absurd ht (by simp)
  | some q =>
    rw [hf] at ht
    rw [Option.or_some]
    exact ht

end Graph

namespace Graph

theorem find?_nodes_eq_none (g : Graph) (n : Yaml) (h : g.hasNode n = false) :
    g.nodes.find? (fun p => decide (p.1 = n)) = none := by
  rw [hasNode_eq_false_iff] at h
  rw [List.find?_eq_none]
  intro p hp hd
  exact h (List.mem_map.2 ⟨p, hp, of_decide_eq_true hd⟩)

theorem tagOf_append_hidden {g g2 : Graph} {extra : List (Yaml × Option NodeType)}
    (h : g2.nodes = g.nodes ++ extra)
    (hall : ∀ q ∈ extra, q.2 = some NodeType.hidden) (n : Yaml)
    (hn : g.hasNode n = false) (hn2 : g2.hasNode n = true) :
    g2.tagOf n = some NodeType.hidden := by
  rw [tagOf, h, List.find?_append, find?_nodes_eq_none g n hn, Option.none_or]
  have hmem : n ∈ extra.map Prod.fst := by
    rw [hasNode_iff, names_append h] at hn2
    rcases List.mem_append.1 hn2 with hm | hm
    · exact absurd hm ((hasNode_eq_false_iff g n).1 hn)
    · exact hm
  obtain ⟨q, hq, hqn⟩ := List.mem_map.1 hmem
  cases hfind : extra.find? (fun p => decide (p.1 = n)) with
  | none =>
    rw [List.find?_eq_none] at hfind
    exact absurd (decide_eq_true hqn) (hfind q hq)
  | some q2 =>
    have := hall q2 (List.mem_of_find?_eq_some hfind)
    simp [this]

theorem addEdge_nodes (g : Graph) (u v : Yaml) (l : String)
    (hu : g.hasNode u = true) (hv : g.hasNode v = true) :
    (g.addEdge u v l).nodes = g.nodes := by
  rw [addEdge]
  rw [ensureNode_of_hasNode g u hu, ensureNode_of_hasNode g v hv]
  split <;> rfl

theorem addEdge_edges_decomp (g : Graph) (u v : Yaml) (l : String) :
    (g.addEdge u v l).edges =
      if ((g.ensureNode u).ensureNode v).hasEdge u v then
        g.edges.map (relabelEdge u v l)
      else g.edges ++ [(u, v, l)] := by
  rw [addEdge]
  split <;> simp [ensureNode_edges]

theorem hasEdge_ensure (g : Graph) (u v w : Yaml) :
    (g.ensureNode w).hasEdge u v = g.hasEdge u v := by
  rw [hasEdge, hasEdge, ensureNode_edges]

theorem hasEdge_iff (g : Graph) (u v : Yaml) :
    g.hasEdge u v = true ↔ ∃ e ∈ g.edges, e.1 = u ∧ e.2.1 = v := by
  rw [hasEdge]
  simp only [decide_eq_true_eq, List.mem_map]
  constructor
  · rintro ⟨e, he, heq⟩
    exact ⟨e, he, congrArg Prod.fst heq, congrArg (fun p => p.2) heq⟩
  · rintro ⟨e, he, h1, h2⟩
    exact ⟨e, he, by rw [h1, h2]⟩

theorem relabelEdge_fst (u v : Yaml) (l : String) (e : Yaml × Yaml × String) :
    (relabelEdge u v l e).1 = e.1 := by
  rw [relabelEdge]
  split <;> rfl

theorem relabelEdge_snd_fst (u v : Yaml) (l : String) (e : Yaml × Yaml × String) :
    (relabelEdge u v l e).2.1 = e.2.1 := by
  rw [relabelEdge]
  split <;> rfl

theorem mem_addEdge_self (g : Graph) (u v : Yaml) (l : String) :
    (u, v, l) ∈ (g.addEdge u v l).edges := by
  rw [addEdge_edges_decomp]
  split
  · rename_i hedge
    rw [hasEdge_ensure, hasEdge_ensure, hasEdge_iff] at hedge
    obtain ⟨e, he, h1, h2⟩ := hedge
    refine List.mem_map.2 ⟨e, he, ?_⟩
    rw [relabelEdge, if_pos ⟨h1, h2⟩, h1, h2]
  · exact List.mem_append_right _ (List.mem_singleton_self _)

theorem mem_addEdge_of_mem (g : Graph) (u v : Yaml) (l : String)
    (e : Yaml × Yaml × String) (he : e ∈ g.edges) (hl : e.2.2 = l) :
    e ∈ (g.addEdge u v l).edges := by
  rw [addEdge_edges_decomp]
  split
  · refine List.mem_map.2 ⟨e, he, ?_⟩
    rw [relabelEdge]
    split
    · rw [← hl]
    · rfl
  · exact List.mem_append_left _ he

theorem mem_addEdge_elim (g : Graph) (u v : Yaml) (l : String)
    (e : Yaml × Yaml × String) (he : e ∈ (g.addEdge u v l).edges) :
    e ∈ g.edges ∨ e = (u, v, l) := by
  rw [addEdge_edges_decomp] at he
  split at he
  · obtain ⟨e0, he0, heq⟩ := List.mem_map.1 he
    rw [relabelEdge] at heq
    split at heq
    · rename_i hc
      right
      rw [← heq, hc.1, hc.2]
    · left
      rw [← heq]
      exact he0
  · rcases List.mem_append.1 he with hm | hm
    · exact Or.inl hm
    · exact Or.inr (List.mem_singleton.1 hm)

theorem addEdge_pairwise (g : Graph) (u v : Yaml) (l : String)
    (hp : g.edges.Pairwise edgeEndsDistinct) :
    (g.addEdge u v l).edges.Pairwise edgeEndsDistinct := by
  rw [addEdge_edges_decomp]
  split
  · rw [List.pairwise_map]
    refine hp.imp ?_
    intro a b hab
    rw [edgeEndsDistinct, relabelEdge_fst, relabelEdge_snd_fst,
      relabelEdge_fst, relabelEdge_snd_fst]
    exact hab
  · rename_i hedge
    rw [hasEdge_ensure, hasEdge_ensure] at hedge
    rw [List.pairwise_append]
    refine ⟨hp, List.pairwise_singleton _ _, ?_⟩
    intro a ha b hb
    rw [List.mem_singleton] at hb
    subst hb
    intro hcon
    rw [Bool.not_eq_true] at hedge
    rw [show ((g.hasEdge u v = false)) ↔ _ from
      ⟨fun hf => (hasEdge_iff g u v).not.1 (by simp [hf]), fun hh => by
        cases hq : g.hasEdge u v
        · rfl
        · exact absurd ((hasEdge_iff g u v).1 hq) hh⟩] at hedge
    exact hedge ⟨a, ha, hcon.1, hcon.2⟩

end Graph

theorem addParents_nodes (l : YSeq) : ∀ (g : Graph) (j : String),
    g.hasNode (.ystr j) = true →
    ∃ extra, (addParents l g j).nodes = g.nodes ++ extra ∧
      ∀ q ∈ extra, q.2 = some NodeType.hidden ∧ q.1 ∈ l.toList := by
  induction l using YSeq.seqConsInduction with
  | hnil =>
    intro g j _
    exact ⟨[], by simp [addParents], by simp⟩
  | hcons parent rest ih =>
    intro g j hj
    rw [addParents]
    cases hp : g.hasNode parent with
    | true =>
      rw [if_pos rfl]
      have hj1 : (Graph.addEdge g parent (.ystr j) "extends").nodes = g.nodes :=
        Graph.addEdge_nodes g parent (.ystr j) "extends" hp hj
      have hj2 : (Graph.addEdge g parent (.ystr j) "extends").hasNode (.ystr j) = true :=
        Graph.hasNode_of_append (by rw [hj1, List.append_nil]) _ hj
      obtain ⟨extra, hne, hprop⟩ := ih _ j hj2
      refine ⟨extra, by rw [hne, hj1], ?_⟩
      intro q hq
      obtain ⟨h1, h2⟩ := hprop q hq
      exact ⟨h1, by rw [YSeq.toList]; exact List.mem_cons_of_mem _ h2⟩
    | false =>
      rw [if_neg (by simp [hp])]
      have hg1 : (g.addNode parent NodeType.hidden).nodes =
          g.nodes ++ [(parent, some NodeType.hidden)] :=
        Graph.addNode_nodes_of_new g parent NodeType.hidden hp
      have hp1 : (g.addNode parent NodeType.hidden).hasNode parent = true := by
        rw [Graph.hasNode_iff, Graph.names_append hg1]
        simp
      have hjj : (g.addNode parent NodeType.hidden).hasNode (.ystr j) = true :=
        Graph.hasNode_of_append hg1 _ hj
      have hg2 : ((g.addNode parent NodeType.hidden).addEdge parent (.ystr j)
          "extends").nodes = g.nodes ++ [(parent, some NodeType.hidden)] := by
        rw [Graph.addEdge_nodes _ parent (.ystr j) "extends" hp1 hjj, hg1]
      have hj3 : ((g.addNode parent NodeType.hidden).addEdge parent (.ystr j)
          "extends").hasNode (.ystr j) = true :=
        Graph.hasNode_of_append hg2 _ hj
      obtain ⟨extra, hne, hprop⟩ := ih _ j hj3
      refine ⟨(parent, some NodeType.hidden) :: extra, ?_, ?_⟩
      · rw [hne, hg2, List.append_assoc]
        rfl
      · intro q hq
        rcases List.mem_cons.1 hq with hq1 | hq2
        · subst hq1
          exact ⟨rfl, by rw [YSeq.toList]; exact List.mem_cons_self _ _⟩
        · obtain ⟨h1, h2⟩ := hprop q hq2
          exact ⟨h1, by rw [YSeq.toList]; exact List.mem_cons_of_mem _ h2⟩

theorem addParents_names_nodup (l : YSeq) : ∀ (g : Graph) (j : String),
    g.hasNode (.ystr j) = true → g.names.Nodup →
    (addParents l g j).names.Nodup := by
  induction l using YSeq.seqConsInduction with
  | hnil =>
    intro g j _ hnd
    simpa [addParents] using hnd
  | hcons parent rest ih =>
    intro g j hj hnd
    rw [addParents]
    cases hp : g.hasNode parent with
    | true =>
      rw [if_pos rfl]
      have hj1 : (Graph.addEdge g parent (.ystr j) "extends").nodes = g.nodes :=
        Graph.addEdge_nodes g parent (.ystr j) "extends" hp hj
      refine ih _ j (Graph.hasNode_of_append (by rw [hj1, List.append_nil]) _ hj) ?_
      rw [Graph.names, hj1, ← Graph.names]
      exact hnd
    | false =>
      rw [if_neg (by simp [hp])]
      have hg1 : (g.addNode parent NodeType.hidden).nodes =
          g.nodes ++ [(parent, some NodeType.hidden)] :=
        Graph.addNode_nodes_of_new g parent NodeType.hidden hp
      have hp1 : (g.addNode parent NodeType.hidden).hasNode parent = true := by
        rw [Graph.hasNode_iff, Graph.names_append hg1]
        simp
      have hjj : (g.addNode parent NodeType.hidden).hasNode (.ystr j) = true :=
        Graph.hasNode_of_append hg1 _ hj
      have hg2 : ((g.addNode parent NodeType.hidden).addEdge parent (.ystr j)
          "extends").nodes = g.nodes ++ [(parent, some NodeType.hidden)] := by
        rw [Graph.addEdge_nodes _ parent (.ystr j) "extends" hp1 hjj, hg1]
      refine ih _ j (Graph.hasNode_of_append hg2 _ hj) ?_
      rw [Graph.names_append hg2]
      rw [List.nodup_append]
      refine ⟨hnd, by simp, ?_⟩
      intro a ha hb
      rw [List.map_singleton, List.mem_singleton] at hb
      subst hb
      exact (Graph.hasNode_eq_false_iff g a).1 hp ha

theorem addParents_hasNode_parent (l : YSeq) : ∀ (g : Graph) (j : String),
    g.hasNode (.ystr j) = true →
    ∀ p ∈ l.toList, (addParents l g j).hasNode p = true := by
  induction l using YSeq.seqConsInduction with
  | hnil => intro g j _ p hp; simp [YSeq.toList] at hp
  | hcons parent rest ih =>
    intro g j hj p hp
    rw [addParents]
    cases hpn : g.hasNode parent with
    | true =>
      rw [if_pos rfl]
      have hj1 : (Graph.addEdge g parent (.ystr j) "extends").nodes = g.nodes :=
        Graph.addEdge_nodes g parent (.ystr j) "extends" hpn hj
      have hj2 : (Graph.addEdge g parent (.ystr j) "extends").hasNode (.ystr j) = true :=
        Graph.hasNode_of_append (by rw [hj1, List.append_nil]) _ hj
      rw [YSeq.toList, List.mem_cons] at hp
      rcases hp with hp | hp
      · subst hp
        obtain ⟨extra, hne, _⟩ := addParents_nodes rest _ j hj2
        refine Graph.hasNode_of_append hne _ ?_
        rw [Graph.hasNode_iff]
        rw [Graph.names, hj1, ← Graph.names]
        exact (Graph.hasNode_iff g p).1 hpn
      · exact ih _ j hj2 p hp
    | false =>
      rw [if_neg (by simp [hpn])]
      have hg1 : (g.addNode parent NodeType.hidden).nodes =
          g.nodes ++ [(parent, some NodeType.hidden)] :=
        Graph.addNode_nodes_of_new g parent NodeType.hidden hpn
      have hp1 : (g.addNode parent NodeType.hidden).hasNode parent = true := by
        rw [Graph.hasNode_iff, Graph.names_append hg1]
        simp
      have hjj : (g.addNode parent NodeType.hidden).hasNode (.ystr j) = true :=
        Graph.hasNode_of_append hg1 _ hj
      have hg2 : ((g.addNode parent NodeType.hidden).addEdge parent (.ystr j)
          "extends").nodes = g.nodes ++ [(parent, some NodeType.hidden)] := by
        rw [Graph.addEdge_nodes _ parent (.ystr j) "extends" hp1 hjj, hg1]
      have hj3 := Graph.hasNode_of_append hg2 _ hj
      rw [YSeq.toList, List.mem_cons] at hp
      rcases hp with hp | hp
      · subst hp
        obtain ⟨extra, hne, _⟩ := addParents_nodes rest _ j hj3
        refine Graph.hasNode_of_append hne _ ?_
        rw [Graph.hasNode_iff, Graph.names_append hg2]
        simp
      · exact ih _ j hj3 p hp

theorem addNode_edges (g : Graph) (n : Yaml) (t : NodeType) :
    (g.addNode n t).edges = g.edges := by
  unfold Graph.addNode
  split <;> rfl

theorem addParents_edges_keep (l : YSeq) : ∀ (g : Graph) (j : String)
    (e : Yaml × Yaml × String), e ∈ g.edges → e.2.2 = "extends" →
    e ∈ (addParents l g j).edges := by
  induction l using YSeq.seqConsInduction with
  | hnil => intro g j e he _; simpa [addParents] using he
  | hcons parent rest ih =>
    intro g j e he hl
    rw [addParents]
    set g1 := if g.hasNode parent then g else g.addNode parent NodeType.hidden with hg1
    have he1 : e ∈ g1.edges := by
      rw [hg1]
      split
      · exact he
      · rw [addNode_edges]; exact he
    exact ih _ j e (Graph.mem_addEdge_of_mem g1 parent (.ystr j) "extends" e he1 hl) hl

theorem addParents_edges_mem (l : YSeq) : ∀ (g : Graph) (j : String)
    (p : Yaml), p ∈ l.toList →
    (p, .ystr j, "extends") ∈ (addParents l g j).edges := by
  induction l using YSeq.seqConsInduction with
  | hnil => intro g j p hp; simp [YSeq.toList] at hp
  | hcons parent rest ih =>
    intro g j p hp
    rw [addParents]
    set g1 := if g.hasNode parent then g else g.addNode parent NodeType.hidden with hg1
    rw [YSeq.toList, List.mem_cons] at hp
    rcases hp with hp | hp
    · subst hp
      exact addParents_edges_keep rest _ j _
        (Graph.mem_addEdge_self g1 p (.ystr j) "extends") rfl
    · exact ih _ j p hp

theorem addParents_edges_elim (l : YSeq) : ∀ (g : Graph) (j : String)
    (e : Yaml × Yaml × String), e ∈ (addParents l g j).edges →
    e ∈ g.edges ∨ ∃ p ∈ l.toList, e = (p, .ystr j, "extends") := by
  induction l using YSeq.seqConsInduction with
  | hnil => intro g j e he; exact Or.inl (by simpa [addParents] using he)
  | hcons parent rest ih =>
    intro g j e he
    rw [addParents] at he
    set g1 := if g.hasNode parent then g else g.addNode parent NodeType.hidden with hg1
    rcases ih _ j e he with hm | ⟨p, hp, heq⟩
    · rcases Graph.mem_addEdge_elim g1 parent (.ystr j) "extends" e hm with hm2 | hm2
      · have : e ∈ g.edges := by
          rw [hg1] at hm2
          split at hm2
          · exact hm2
          · rw [addNode_edges] at hm2; exact hm2
        exact Or.inl this
      · exact Or.inr ⟨parent, by rw [YSeq.toList]; exact List.mem_cons_self _ _, hm2⟩
    · exact Or.inr ⟨p, by rw [YSeq.toList]; exact List.mem_cons_of_mem _ hp, heq⟩

theorem addParents_edges_pairwise (l : YSeq) : ∀ (g : Graph) (j : String),
    g.edges.Pairwise edgeEndsDistinct →
    (addParents l g j).edges.Pairwise edgeEndsDistinct := by
  induction l using YSeq.seqConsInduction with
  | hnil => intro g j hp; simpa [addParents] using hp
  | hcons parent rest ih =>
    intro g j hp
    rw [addParents]
    set g1 := if g.hasNode parent then g else g.addNode parent NodeType.hidden with hg1
    have hp1 : g1.edges.Pairwise edgeEndsDistinct := by
      rw [hg1]
      split
      · exact hp
      · rw [addNode_edges]; exact hp
    exact ih _ j (Graph.addEdge_pairwise g1 parent (.ystr j) "extends" hp1)

theorem edgesStep_spec (k : String) (cfg : Yaml) (g : Graph)
    (hj : g.hasNode (.ystr k) = true) :
    ∃ g1, (∀ rest, addEdgesPass (.cons k cfg rest) g = addEdgesPass rest g1) ∧
      (∃ extra, g1.nodes = g.nodes ++ extra ∧
        ∀ q ∈ extra, q.2 = some NodeType.hidden ∧ q.1 ∈ parentsOf cfg) ∧
      (g.names.Nodup → g1.names.Nodup) ∧
      (∀ p ∈ parentsOf cfg, g1.hasNode p = true) ∧
      (∀ e ∈ g.edges, e.2.2 = "extends" → e ∈ g1.edges) ∧
      (∀ p ∈ parentsOf cfg, (p, .ystr k, "extends") ∈ g1.edges) ∧
      (∀ e ∈ g1.edges, e ∈ g.edges ∨ ∃ p ∈ parentsOf cfg,
        e = (p, .ystr k, "extends")) ∧
      (g.edges.Pairwise edgeEndsDistinct →
        g1.edges.Pairwise edgeEndsDistinct) := by
  have htriv : ∀ (hpo : parentsOf cfg = [])
      (hstep : ∀ rest, addEdgesPass (.cons k cfg rest) g = addEdgesPass rest g),
      ∃ g1, (∀ rest, addEdgesPass (.cons k cfg rest) g = addEdgesPass rest g1) ∧
      (∃ extra, g1.nodes = g.nodes ++ extra ∧
        ∀ q ∈ extra, q.2 = some NodeType.hidden ∧ q.1 ∈ parentsOf cfg) ∧
      (g.names.Nodup → g1.names.Nodup) ∧
      (∀ p ∈ parentsOf cfg, g1.hasNode p = true) ∧
      (∀ e ∈ g.edges, e.2.2 = "extends" → e ∈ g1.edges) ∧
      (∀ p ∈ parentsOf cfg, (p, .ystr k, "extends") ∈ g1.edges) ∧
      (∀ e ∈ g1.edges, e ∈ g.edges ∨ ∃ p ∈ parentsOf cfg,
        e = (p, .ystr k, "extends")) ∧
      (g.edges.Pairwise edgeEndsDistinct →
        g1.edges.Pairwise edgeEndsDistinct) := by
    intro hpo hstep
    refine ⟨g, hstep, ⟨[], by simp, by simp⟩, id, ?_, fun e he _ => he, ?_,
      fun e he => Or.inl he, id⟩
    · intro p hp
      rw [hpo] at hp
      simp at hp
    · intro p hp
      rw [hpo] at hp
      simp at hp
  cases cfg with
  | ymap jc =>
    cases hx : jc.get "extends" with
    | none =>
      exact htriv (by simp [parentsOf, hx]) (fun rest => by simp [addEdgesPass, hx])
    | some ext =>
      cases hn : normalizeExtends ext with
      | none =>
        exact htriv (by simp [parentsOf, hx, hn])
          (fun rest => by simp [addEdgesPass, hx, hn])
      | some ps =>
        have hpo : parentsOf (.ymap jc) = ps.toList := by simp [parentsOf, hx, hn]
        refine ⟨addParents ps g k, fun rest => by simp [addEdgesPass, hx, hn], ?_, ?_,
          ?_, ?_, ?_, ?_, ?_⟩
        · rw [hpo]
          exact addParents_nodes ps g k hj
        · exact addParents_names_nodup ps g k hj
        · rw [hpo]
          exact addParents_hasNode_parent ps g k hj
        · exact fun e he hl => addParents_edges_keep ps g k e he hl
        · rw [hpo]
          exact fun p hp => addParents_edges_mem ps g k p hp
        · rw [hpo]
          exact fun e he => addParents_edges_elim ps g k e he
        · exact addParents_edges_pairwise ps g k
  | ystr s => exact htriv (by simp [parentsOf]) (fun rest => by simp [addEdgesPass])
  | yint n => exact htriv (by simp [parentsOf]) (fun rest => by simp [addEdgesPass])
  | ybool b => exact htriv (by simp [parentsOf]) (fun rest => by simp [addEdgesPass])
  | ynull => exact htriv (by simp [parentsOf]) (fun rest => by simp [addEdgesPass])
  | yseq l2 => exact htriv (by simp [parentsOf]) (fun rest => by simp [addEdgesPass])

theorem addEdgesPass_spec (m : YMap) : ∀ g : Graph,
    (∀ k ∈ m.keys, g.hasNode (.ystr k) = true) →
    (∃ extra, (addEdgesPass m g).nodes = g.nodes ++ extra ∧
       ∀ q ∈ extra, q.2 = some NodeType.hidden ∧ q.1 ∈ referencedParents m)
    ∧ (g.names.Nodup → (addEdgesPass m g).names.Nodup)
    ∧ (∀ p ∈ referencedParents m, (addEdgesPass m g).hasNode p = true)
    ∧ (∀ e ∈ g.edges, e.2.2 = "extends" → e ∈ (addEdgesPass m g).edges)
    ∧ (∀ c cfg, m.get c = some cfg → ∀ p ∈ parentsOf cfg,
        (p, .ystr c, "extends") ∈ (addEdgesPass m g).edges)
    ∧ (∀ e ∈ (addEdgesPass m g).edges, e ∈ g.edges ∨
        ∃ k cfg, (k, cfg) ∈ m.entries ∧ ∃ p ∈ parentsOf cfg,
          e = (p, .ystr k, "extends"))
    ∧ (g.edges.Pairwise edgeEndsDistinct →
        (addEdgesPass m g).edges.Pairwise edgeEndsDistinct) := by
  induction m using YMap.mapConsInduction with
  | hnil =>
    intro g _
    refine ⟨⟨[], by simp [addEdgesPass], by simp⟩, id, ?_, ?_, ?_, ?_, id⟩
    · intro p hp
      simp [referencedParents] at hp
    · intro e he _
      simpa [addEdgesPass] using he
    · intro c cfg hc
      simp [YMap.get] at hc
    · intro e he
      exact Or.inl (by simpa [addEdgesPass] using he)
  | hcons k cfg rest ih =>
    intro g hkeys
    have hj : g.hasNode (.ystr k) = true :=
      hkeys k (by rw [YMap.keys]; exact List.mem_cons_self _ _)
    obtain ⟨g1, hstep, ⟨extraS, hnS, hqS⟩, hndS, hparS, hkeepS, hmemS, helimS,
      hpwS⟩ := edgesStep_spec k cfg g hj
    have hkeys1 : ∀ k2 ∈ rest.keys, g1.hasNode (.ystr k2) = true := by
      intro k2 hk2
      exact Graph.hasNode_of_append hnS _
        (hkeys k2 (by rw [YMap.keys]; exact List.mem_cons_of_mem _ hk2))
    obtain ⟨⟨extraR, hnR, hqR⟩, hndR, hparR, hkeepR, hmemR, helimR, hpwR⟩ :=
      ih g1 hkeys1
    rw [hstep rest]
    have hrefc : ∀ x, x ∈ parentsOf cfg → x ∈ referencedParents (YMap.cons k cfg rest) := by
      intro x hx
      rw [referencedParents]
      exact List.mem_append_left _ hx
    have hrefr : ∀ x, x ∈ referencedParents rest →
        x ∈ referencedParents (YMap.cons k cfg rest) := by
      intro x hx
      rw [referencedParents]
      exact List.mem_append_right _ hx
    refine ⟨⟨extraS ++ extraR, by rw [hnR, hnS, List.append_assoc], ?_⟩, ?_, ?_, ?_,
      ?_, ?_, ?_⟩
    · intro q hq
      rcases List.mem_append.1 hq with hq1 | hq2
      · obtain ⟨h1, h2⟩ := hqS q hq1
        exact ⟨h1, hrefc _ h2⟩
      · obtain ⟨h1, h2⟩ := hqR q hq2
        exact ⟨h1, hrefr _ h2⟩
    · exact fun hnd => hndR (hndS hnd)
    · intro p hp
      rw [referencedParents] at hp
      rcases List.mem_append.1 hp with hp1 | hp2
      · exact Graph.hasNode_of_append hnR _ (hparS p hp1)
      · exact hparR p hp2
    · exact fun e he hl => hkeepR e (hkeepS e he hl) hl
    · intro c cfg2 hc p hp
      rw [YMap.get] at hc
      by_cases hkc : k = c
      · subst hkc
        rw [if_pos rfl] at hc
        cases hc
        exact hkeepR _ (hmemS p hp) rfl
      · rw [if_neg hkc] at hc
        exact hmemR c cfg2 hc p hp
    · intro e he
      rcases helimR e he with he1 | ⟨k2, cfg2, hk2, p, hp, heq⟩
      · rcases helimS e he1 with he2 | ⟨p, hp, heq⟩
        · exact Or.inl he2
        · exact Or.inr ⟨k, cfg, by rw [YMap.entries]; exact List.mem_cons_self _ _,
            p, hp, heq⟩
      · exact Or.inr ⟨k2, cfg2,
          by rw [YMap.entries]; exact List.mem_cons_of_mem _ hk2, p, hp, heq⟩
    · exact fun hpw => hpwR (hpwS hpw)

theorem addNodesPass_nodes (m : YMap) : ∀ g : Graph, m.keys.Nodup →
    (∀ k ∈ m.keys, g.hasNode (.ystr k) = false) →
    (addNodesPass m g).nodes =
      g.nodes ++ m.keys.map (fun k => (Yaml.ystr k, some (classify k))) := by
  induction m using YMap.mapConsInduction with
  | hnil => intro g _ _; simp [addNodesPass, YMap.keys]
  | hcons k v rest ih =>
    intro g hnd hfresh
    have hk : k ∈ (YMap.cons k v rest).keys := by
      rw [YMap.keys]; exact List.mem_cons_self _ _
    have hfk : g.hasNode (.ystr k) = false := hfresh k hk
    rw [YMap.keys, List.nodup_cons] at hnd
    have hstep : addNodesPass (YMap.cons k v rest) g =
        addNodesPass rest (g.addNode (.ystr k) (classify k)) := by
      rw [addNodesPass, classify]
      by_cases hsw : strStartsWith k "." = true
      · rw [if_pos hsw, if_pos hsw]
      · rw [if_neg hsw, if_neg hsw]
    rw [hstep]
    have hg2 : (g.addNode (.ystr k) (classify k)).nodes =
        g.nodes ++ [(.ystr k, some (classify k))] :=
      Graph.addNode_nodes_of_new g _ _ hfk
    have hfresh2 : ∀ k2 ∈ rest.keys,
        (g.addNode (.ystr k) (classify k)).hasNode (.ystr k2) = false := by
      intro k2 hk2
      rw [Graph.hasNode_eq_false_iff, Graph.names_append hg2]
      rw [List.mem_append]
      rintro (hm | hm)
      · exact absurd hm ((Graph.hasNode_eq_false_iff g _).1
          (hfresh k2 (by rw [YMap.keys]; exact List.mem_cons_of_mem _ hk2)))
      · rw [List.map_singleton, List.mem_singleton, Yaml.ystr.injEq] at hm
        exact hnd.1 (hm ▸ hk2)
    rw [ih _ hnd.2 hfresh2, hg2, YMap.keys, List.map_cons, List.append_assoc]
    rfl

theorem addNodesPass_edges (m : YMap) : ∀ g : Graph,
    (addNodesPass m g).edges = g.edges := by
  induction m using YMap.mapConsInduction with
  | hnil => intro g; rfl
  | hcons k v rest ih =>
    intro g
    rw [addNodesPass]
    by_cases hsw : strStartsWith k "." = true
    · rw [if_pos hsw, ih, addNode_edges]
    · rw [if_neg hsw, ih, addNode_edges]

theorem tagOf_keysMap (ls : List String) (es : List (Yaml × Yaml × String))
    (k : String) (hk : k ∈ ls) :
    Graph.tagOf ⟨ls.map (fun k2 => (Yaml.ystr k2, some (classify k2))), es⟩
      (.ystr k) = some (classify k) := by
  induction ls with
  | nil => simp at hk
  | cons k0 restl ih =>
    rw [List.mem_cons] at hk
    by_cases h0 : k0 = k
    · subst h0
      simp [Graph.tagOf, List.find?]
    · have hk2 : k ∈ restl := hk.resolve_left (fun he => h0 he.symm)
      rw [Graph.tagOf, List.map_cons, List.find?]
      have : (decide ((Yaml.ystr k0, some (classify k0)).1 = Yaml.ystr k)) = false := by
        simp [h0]
      rw [this]
      exact ih hk2

theorem countP_endpoints_eq_one (l : List (Yaml × Yaml × String)) (u v : Yaml)
    (hpw : l.Pairwise edgeEndsDistinct) :
    ∀ e0 ∈ l, e0.1 = u → e0.2.1 = v →
    l.countP (fun e => decide (e.1 = u ∧ e.2.1 = v)) = 1 := by
  induction l with
  | nil => intro e0 he0; simp at he0
  | cons a t ih =>
    rw [List.pairwise_cons] at hpw
    intro e0 he0 h1 h2
    rcases List.mem_cons.1 he0 with he | he
    · subst he
      rw [List.countP_cons]
      have hz : t.countP (fun e => decide (e.1 = u ∧ e.2.1 = v)) = 0 := by
        rw [List.countP_eq_zero]
        intro b hb hc
        rw [decide_eq_true_eq] at hc
        exact hpw.1 b hb ⟨h1.trans hc.1.symm, h2.trans hc.2.symm⟩
      rw [hz, if_pos (by rw [decide_eq_true_eq]; exact ⟨h1, h2⟩)]
    · rw [List.countP_cons]
      have hfa : ¬(a.1 = u ∧ a.2.1 = v) := by
        intro hc
        exact hpw.1 e0 he ⟨hc.1.trans h1.symm, hc.2.trans h2.symm⟩
      rw [if_neg (by rw [decide_eq_true_eq]; exact hfa), Nat.add_zero]
      exact ih hpw.2 e0 he h1 h2

theorem processIncludes_all_skipped_del (fs : String → Option Yaml)
    (fuel : Nat) (m : YMap) (base : String) (v : Yaml)
    (hinc : m.get "include" = some v)
    (hskip : ∀ e ∈ (normalizeInclude v).toList, entrySkipped e = true) :
    parse_includes fs (fuel + 1) (.ymap m) base = .ok (.ymap (m.del "include")) := by
  simp only [parse_includes, hinc,
    processIncludes_skipped (parse_includes fs fuel) fs (normalizeInclude v)
      m base hskip]

theorem addNodesPassSt_eq (m : YMap) : ∀ g : Graph,
    addNodesPassSt m g = (addNodesPass m g, m) := by
  induction m using YMap.mapConsInduction with
  | hnil => intro g; rfl
  | hcons k v rest ih =>
    intro g
    rw [addNodesPassSt, addNodesPass]
    by_cases hsw : strStartsWith k "." = true
    · rw [if_pos hsw, ih]
    · rw [if_neg hsw, ih]

theorem addEdgesPassSt_eq (m : YMap) : ∀ g : Graph,
    addEdgesPassSt m g = (addEdgesPass m g, m) := by
  induction m using YMap.mapConsInduction with
  | hnil => intro g; rfl
  | hcons k cfg rest ih =>
    intro g
    cases cfg with
    | ymap jc =>
      cases hx : jc.get "extends" with
      | none => simp [addEdgesPassSt, addEdgesPass, hx, ih]
      | some ext =>
        cases hn : normalizeExtends ext with
        | none => simp [addEdgesPassSt, addEdgesPass, hx, hn, ih]
        | some ps => simp [addEdgesPassSt, addEdgesPass, hx, hn, ih]
    | ystr s => simp [addEdgesPassSt, addEdgesPass, ih]
    | yint n => simp [addEdgesPassSt, addEdgesPass, ih]
    | ybool b => simp [addEdgesPassSt, addEdgesPass, ih]
    | ynull => simp [addEdgesPassSt, addEdgesPass, ih]
    | yseq l2 => simp [addEdgesPassSt, addEdgesPass, ih]

theorem addNodesPass_empty (m : YMap) (hnd : m.keys.Nodup) :
    addNodesPass m ⟨[], []⟩ =
      ⟨m.keys.map (fun k => (Yaml.ystr k, some (classify k))), []⟩ := by
  have h1 := addNodesPass_nodes m ⟨[], []⟩ hnd
    (fun k _ => by simp [Graph.hasNode])
  have h2 := addNodesPass_edges m ⟨[], []⟩
  rw [show addNodesPass m ⟨[], []⟩ =
    (⟨(addNodesPass m ⟨[], []⟩).nodes, (addNodesPass m ⟨[], []⟩).edges⟩ : Graph)
    from rfl, h1, h2]
  simp

theorem pass1_hasNode (m : YMap) (hnd : m.keys.Nodup) (k : String)
    (hk : k ∈ m.keys) : (addNodesPass m ⟨[], []⟩).hasNode (.ystr k) = true := by
  rw [addNodesPass_empty m hnd, Graph.hasNode_iff, Graph.names]
  simp only [List.map_map]
  exact List.mem_map.2 ⟨k, hk, rfl⟩

theorem pass1_names (m : YMap) (hnd : m.keys.Nodup) :
    (addNodesPass m ⟨[], []⟩).names = m.keys.map Yaml.ystr := by
  rw [addNodesPass_empty m hnd, Graph.names]
  simp only [List.map_map]
  rfl

/-- C1 counterexample: in the document with single key `test` extending
`base`, the identifier `base` never starts with `.` yet `build_graph`
creates its node with classification `hidden`, so the classification of a
node is not the pure leading-character function the claim states. -/
theorem C1_counterexample :
    (build_graph (.cons "test" (.ymap (.cons "extends" (.ystr "base") .nil))
      .nil)).tagOf (.ystr "base") = some NodeType.hidden ∧
    strStartsWith "base" "." = false :=
  ⟨by decide, by decide⟩

/-- C1 (amended): for a resolved document with distinct keys, a node created
for an explicit top-level key is classified by the leading-character rule
(`hidden` iff the key starts with `.`, else `job`), while a node that is not
an explicit key (auto-created as an extends target) is always classified
`hidden`, regardless of its leading character. -/
theorem C1_amended_classification (m : YMap) (hnd : m.keys.Nodup) :
    (∀ k ∈ m.keys, (build_graph m).tagOf (.ystr k) = some (classify k)) ∧
    (∀ n, (build_graph m).hasNode n = true → n ∉ m.keys.map Yaml.ystr →
      (build_graph m).tagOf n = some NodeType.hidden) := by
  have hkeys : ∀ k ∈ m.keys, (addNodesPass m ⟨[], []⟩).hasNode (.ystr k) = true :=
    fun k hk => pass1_hasNode m hnd k hk
  obtain ⟨⟨extra, hne, hq⟩, _, _, _, _, _, _⟩ := addEdgesPass_spec m _ hkeys
  constructor
  · intro k hk
    have h0 : (addNodesPass m ⟨[], []⟩).tagOf (.ystr k) = some (classify k) := by
      rw [addNodesPass_empty m hnd]
      exact tagOf_keysMap m.keys [] k hk
    exact Graph.tagOf_of_append hne h0
  · intro n hn hnot
    have h0 : (addNodesPass m ⟨[], []⟩).hasNode n = false := by
      rw [Graph.hasNode_eq_false_iff, pass1_names m hnd]
      exact hnot
    exact Graph.tagOf_append_hidden hne (fun q hq2 => (hq q hq2).1) n h0 hn

/-- C1 witness: the amended classification instantiated on the document
with job `test` extending template `.b`. -/
theorem C1_witness :
    (YMap.cons "test" (.ymap (.cons "extends" (.ystr ".b") .nil)) .nil).keys.Nodup ∧
    ((∀ k ∈ (YMap.cons "test" (.ymap (.cons "extends" (.ystr ".b") .nil))
        .nil).keys,
      (build_graph (.cons "test" (.ymap (.cons "extends" (.ystr ".b") .nil))
        .nil)).tagOf (.ystr k) = some (classify k)) ∧
    (∀ n, (build_graph (.cons "test" (.ymap (.cons "extends" (.ystr ".b") .nil))
        .nil)).hasNode n = true →
      n ∉ (YMap.cons "test" (.ymap (.cons "extends" (.ystr ".b") .nil))
        .nil).keys.map Yaml.ystr →
      (build_graph (.cons "test" (.ymap (.cons "extends" (.ystr ".b") .nil))
        .nil)).tagOf n = some NodeType.hidden)) :=
  ⟨by decide, C1_amended_classification _ (by decide)⟩

/-- C2: resolving a document whose include sequence lists two local files
(each resolving to a plain mapping) merges the included mappings into the
document in sequence order: for every key other than include, the second
entry's binding wins over the first entry's, which wins over a binding the
document already had before merging. -/
theorem C2_merge_order (fs : String → Option Yaml) (fuel : Nat)
    (m im1 im2 M1 M2 : YMap) (base p1 p2 k : String)
    (hinc : m.get "include" =
      some (.yseq (.cons (.ymap im1) (.cons (.ymap im2) .nil))))
    (hl1 : im1.get "local" = some (.ystr p1))
    (hf1 : fs (pathJoin base p1) = some (.ymap M1))
    (hM1 : M1.get "include" = none) (hnd1 : M1.keys.Nodup)
    (hl2 : im2.get "local" = some (.ystr p2))
    (hf2 : fs (pathJoin base p2) = some (.ymap M2))
    (hM2 : M2.get "include" = none) (hnd2 : M2.keys.Nodup)
    (hk : k ≠ "include") :
    ∃ R, parse_includes fs (fuel + 2) (.ymap m) base = .ok (.ymap R) ∧
      R.get k = firstSome (M2.get k) (firstSome (M1.get k) (m.get k)) := by
  refine ⟨((m.update M1).update M2).del "include",
    resolve_two_includes fs fuel m im1 im2 M1 M2 base p1 p2 hinc hl1 hf1 hM1
      hl2 hf2 hM2, ?_⟩
  rw [YMap.get_del_ne _ _ _ (Ne.symm hk),
    YMap.get_update _ M2 k hnd2, YMap.get_update _ M1 k hnd1]

/-- C2 witness: the merge instantiated on a document with a local binding
for key k and two includes that both define k; the result holds the second
include's value. -/
theorem C2_witness :
    ((YMap.cons "include" (.yseq (.cons (.ymap (.cons "local" (.ystr "t1.yml")
        .nil)) (.cons (.ymap (.cons "local" (.ystr "t2.yml") .nil)) .nil)))
      (.cons "k" (.ystr "local") .nil)).get "include" =
      some (.yseq (.cons (.ymap (.cons "local" (.ystr "t1.yml") .nil))
        (.cons (.ymap (.cons "local" (.ystr "t2.yml") .nil)) .nil)))) ∧
    (∃ R, parse_includes
      (fun p => if p = "./t1.yml" then some (.ymap (.cons "k" (.ystr "v1") .nil))
        else if p = "./t2.yml" then some (.ymap (.cons "k" (.ystr "v2") .nil))
        else none) 2
      (.ymap (.cons "include" (.yseq (.cons (.ymap (.cons "local"
        (.ystr "t1.yml") .nil)) (.cons (.ymap (.cons "local" (.ystr "t2.yml")
        .nil)) .nil)))
        (.cons "k" (.ystr "local") .nil))) "." = .ok (.ymap R) ∧
      R.get "k" = firstSome ((YMap.cons "k" (.ystr "v2") .nil).get "k")
        (firstSome ((YMap.cons "k" (.ystr "v1") .nil).get "k")
          ((YMap.cons "include" (.yseq (.cons (.ymap (.cons "local"
            (.ystr "t1.yml") .nil)) (.cons (.ymap (.cons "local"
            (.ystr "t2.yml") .nil)) .nil)))
            (.cons "k" (.ystr "local") .nil)).get "k"))) :=
  ⟨by decide, C2_merge_order
    (fun p => if p = "./t1.yml" then some (.ymap (.cons "k" (.ystr "v1") .nil))
      else if p = "./t2.yml" then some (.ymap (.cons "k" (.ystr "v2") .nil))
      else none) 0
    (.cons "include" (.yseq (.cons (.ymap (.cons "local" (.ystr "t1.yml")
      .nil)) (.cons (.ymap (.cons "local" (.ystr "t2.yml") .nil)) .nil)))
      (.cons "k" (.ystr "local") .nil))
    (.cons "local" (.ystr "t1.yml") .nil)
    (.cons "local" (.ystr "t2.yml") .nil)
    (.cons "k" (.ystr "v1") .nil)
    (.cons "k" (.ystr "v2") .nil)
    "." "t1.yml" "t2.yml" "k"
    (by decide) (by decide) (by decide) (by decide) (by decide)
    (by decide) (by decide) (by decide) (by decide) (by decide)⟩

/-- C3 counterexample: a document whose only include points at an empty
mapping, with a job definition that nests an include key one level down.
The includes form a finite acyclic chain, resolution succeeds, yet the
result still contains an include key at a nested level, so the claim that
no include key remains at any nesting level fails on the code (only the
top level is stripped). -/
theorem C3_counterexample :
    parse_includes (fun p => if p = "./t.yml" then some (.ymap .nil) else none)
      2 (.ymap (.cons "include" (.ymap (.cons "local" (.ystr "t.yml") .nil))
        (.cons "job" (.ymap (.cons "include" (.ystr "x") .nil)) .nil))) "." =
      .ok (.ymap (.cons "job" (.ymap (.cons "include" (.ystr "x") .nil)) .nil)) ∧
    hasIncludeKeyM (.cons "job" (.ymap (.cons "include" (.ystr "x") .nil))
      .nil) = true :=
  ⟨rfl, rfl⟩

/-- C3 (amended): for documents with distinct keys whose includes resolve,
the resolved document is a mapping with no include key at the TOP level
(nested include keys inside job definitions are not removed), and for a
two-entry include chain of plain mappings every key of an included document
other than include survives into the result unless shadowed by the
later-merged include, which wins. -/
theorem C3_amended_toplevel_include_removed (fs : String → Option Yaml)
    (fuel : Nat) (m im1 im2 M1 M2 : YMap) (base p1 p2 : String)
    (hinc : m.get "include" =
      some (.yseq (.cons (.ymap im1) (.cons (.ymap im2) .nil))))
    (hl1 : im1.get "local" = some (.ystr p1))
    (hf1 : fs (pathJoin base p1) = some (.ymap M1))
    (hM1 : M1.get "include" = none) (hnd1 : M1.keys.Nodup)
    (hl2 : im2.get "local" = some (.ystr p2))
    (hf2 : fs (pathJoin base p2) = some (.ymap M2))
    (hM2 : M2.get "include" = none) (hnd2 : M2.keys.Nodup) :
    (∀ (fs2 : String → Option Yaml) (fuel2 : Nat) (m2 : YMap) (base2 : String)
      (r : Yaml), m2.keys.Nodup →
      parse_includes fs2 fuel2 (.ymap m2) base2 = .ok r →
      ∃ m3, r = .ymap m3 ∧ m3.get "include" = none) ∧
    (∃ R, parse_includes fs (fuel + 2) (.ymap m) base = .ok (.ymap R) ∧
      (∀ k v, k ≠ "include" → M2.get k = some v → R.get k = some v) ∧
      (∀ k v, k ≠ "include" → M2.get k = none → M1.get k = some v →
        R.get k = some v)) := by
  constructor
  · intro fs2 fuel2 m2 base2 r hnd2b hok
    exact parse_includes_ok_shape fs2 fuel2 m2 base2 r hnd2b hok
  · refine ⟨((m.update M1).update M2).del "include",
      resolve_two_includes fs fuel m im1 im2 M1 M2 base p1 p2 hinc hl1 hf1 hM1
        hl2 hf2 hM2, ?_, ?_⟩
    · intro k v hk h2
      rw [YMap.get_del_ne _ _ _ (Ne.symm hk), YMap.get_update _ M2 k hnd2, h2,
        firstSome]
    · intro k v hk h2 h1
      rw [YMap.get_del_ne _ _ _ (Ne.symm hk), YMap.get_update _ M2 k hnd2, h2,
        firstSome, YMap.get_update _ M1 k hnd1, h1, firstSome]

/-- C3 witness: the amended statement instantiated on a root document with a
local key and two includes, checking both surviving and shadowed keys. -/
theorem C3_witness :
    ((YMap.cons "include" (.yseq (.cons (.ymap (.cons "local" (.ystr "t1.yml")
        .nil)) (.cons (.ymap (.cons "local" (.ystr "t2.yml") .nil)) .nil)))
      .nil).get "include" =
      some (.yseq (.cons (.ymap (.cons "local" (.ystr "t1.yml") .nil))
        (.cons (.ymap (.cons "local" (.ystr "t2.yml") .nil)) .nil)))) ∧
    ((∀ (fs2 : String → Option Yaml) (fuel2 : Nat) (m2 : YMap) (base2 : String)
      (r : Yaml), m2.keys.Nodup →
      parse_includes fs2 fuel2 (.ymap m2) base2 = .ok r →
      ∃ m3, r = .ymap m3 ∧ m3.get "include" = none) ∧
    (∃ R, parse_includes
      (fun p => if p = "./t1.yml" then
          some (.ymap (.cons "a" (.yint 1) (.cons "b" (.yint 2) .nil)))
        else if p = "./t2.yml" then some (.ymap (.cons "b" (.yint 3) .nil))
        else none) 2
      (.ymap (.cons "include" (.yseq (.cons (.ymap (.cons "local"
        (.ystr "t1.yml") .nil)) (.cons (.ymap (.cons "local" (.ystr "t2.yml")
        .nil)) .nil))) .nil)) "." = .ok (.ymap R) ∧
      (∀ k v, k ≠ "include" →
        (YMap.cons "b" (.yint 3) .nil).get k = some v → R.get k = some v) ∧
      (∀ k v, k ≠ "include" → (YMap.cons "b" (.yint 3) .nil).get k = none →
        (YMap.cons "a" (.yint 1) (.cons "b" (.yint 2) .nil)).get k = some v →
        R.get k = some v))) :=
  ⟨by decide, C3_amended_toplevel_include_removed
    (fun p => if p = "./t1.yml" then
        some (.ymap (.cons "a" (.yint 1) (.cons "b" (.yint 2) .nil)))
      else if p = "./t2.yml" then some (.ymap (.cons "b" (.yint 3) .nil))
      else none) 0
    (.cons "include" (.yseq (.cons (.ymap (.cons "local" (.ystr "t1.yml")
      .nil)) (.cons (.ymap (.cons "local" (.ystr "t2.yml") .nil)) .nil)))
      .nil)
    (.cons "local" (.ystr "t1.yml") .nil)
    (.cons "local" (.ystr "t2.yml") .nil)
    (.cons "a" (.yint 1) (.cons "b" (.yint 2) .nil))
    (.cons "b" (.yint 3) .nil)
    "." "t1.yml" "t2.yml"
    (by decide) (by decide) (by decide) (by decide) (by decide)
    (by decide) (by decide) (by decide) (by decide)⟩

/-- C4 counterexample: an include value that is a number (not a mapping or
sequence of mappings) is silently skipped and resolution succeeds with the
include key removed, and an extends value that is a number yields a graph
with no edges; no error of any kind is raised, contradicting the claimed
fatal MalformedDirective failure at normalization. -/
theorem C4_counterexample :
    parse_includes (fun _ => none) 1
      (.ymap (.cons "include" (.yint 5) (.cons "a" .ynull .nil))) "." =
      .ok (.ymap (.cons "a" .ynull .nil)) ∧
    (build_graph (.cons "t" (.ymap (.cons "extends" (.yint 7) .nil))
      .nil)).edges = [] :=
  ⟨rfl, by decide⟩

/-- C4 (amended): malformed directives are silently ignored, not fatal: an
include value none of whose normalized entries is a mapping with a local
key resolves successfully to the document with the include key deleted, and
a job whose extends value normalizes to no parents (neither string nor
sequence) contributes no edges, so no edge of the graph targets it. -/
theorem C4_amended_silent_skip (fs : String → Option Yaml) (fuel : Nat)
    (m : YMap) (base : String) (v : Yaml) (d : YMap) (c : String) (cfg : Yaml)
    (hinc : m.get "include" = some v)
    (hskip : ∀ e ∈ (normalizeInclude v).toList, entrySkipped e = true)
    (hnd : d.keys.Nodup) (hc : d.get c = some cfg) (hpo : parentsOf cfg = []) :
    parse_includes fs (fuel + 1) (.ymap m) base = .ok (.ymap (m.del "include")) ∧
    (∀ e ∈ (build_graph d).edges, e.2.1 ≠ .ystr c) := by
  constructor
  · exact processIncludes_all_skipped_del fs fuel m base v hinc hskip
  · have hkeys : ∀ k ∈ d.keys, (addNodesPass d ⟨[], []⟩).hasNode (.ystr k) = true :=
      fun k hk => pass1_hasNode d hnd k hk
    obtain ⟨_, _, _, _, _, helim, _⟩ := addEdgesPass_spec d _ hkeys
    intro e he heq
    rcases helim e he with h0 | ⟨k2, cfg2, hent, p, hp, hef⟩
    · rw [addNodesPass_edges] at h0
      exact (List.not_mem_nil e) h0
    · have hk2c : k2 = c := by
        rw [hef] at heq
        exact Yaml.ystr.inj heq
      subst hk2c
      have hget := YMap.get_eq_of_mem_entries d k2 cfg2 hnd hent
      rw [hc] at hget
      have : cfg = cfg2 := Option.some.inj hget
      rw [← this, hpo] at hp
      exact (List.not_mem_nil p) hp

/-- C4 witness: the amended behaviour instantiated on a numeric include
value and a numeric extends value. -/
theorem C4_witness :
    ((YMap.cons "include" (.yint 5) .nil).get "include" = some (.yint 5)) ∧
    (∀ e ∈ (normalizeInclude (.yint 5)).toList, entrySkipped e = true) ∧
    ((YMap.cons "t" (.ymap (.cons "extends" (.yint 7) .nil)) .nil).keys.Nodup) ∧
    (parse_includes (fun _ => none) 1 (.ymap (.cons "include" (.yint 5) .nil))
      "." = .ok (.ymap ((YMap.cons "include" (.yint 5) .nil).del "include")) ∧
    (∀ e ∈ (build_graph (.cons "t" (.ymap (.cons "extends" (.yint 7) .nil))
      .nil)).edges, e.2.1 ≠ .ystr "t")) :=
  ⟨by decide, by decide, by decide,
    C4_amended_silent_skip (fun _ => none) 0 (.cons "include" (.yint 5) .nil)
      "." (.yint 5) (.cons "t" (.ymap (.cons "extends" (.yint 7) .nil)) .nil)
      "t" (.ymap (.cons "extends" (.yint 7) .nil))
      (by decide) (by decide) (by decide) (by decide) (by decide)⟩

/-- C5: in a resolved document with distinct keys, every identifier
referenced by any extends value occurs in the node list of the built graph
exactly once, however many children reference it, and when it is not an
explicit top-level key its auto-created node is classified hidden. -/
theorem C5_extends_targets_in_graph (m : YMap) (p : Yaml)
    (hnd : m.keys.Nodup) (hp : p ∈ referencedParents m) :
    (build_graph m).names.count p = 1 ∧
    (p ∉ m.keys.map Yaml.ystr →
      (build_graph m).tagOf p = some NodeType.hidden) := by
  have hkeys : ∀ k ∈ m.keys, (addNodesPass m ⟨[], []⟩).hasNode (.ystr k) = true :=
    fun k hk => pass1_hasNode m hnd k hk
  obtain ⟨⟨extra, hne, hq⟩, hndup, hpar, _, _, _, _⟩ := addEdgesPass_spec m _ hkeys
  have hn0 : (addNodesPass m ⟨[], []⟩).names.Nodup := by
    rw [pass1_names m hnd]
    exact hnd.map (fun a b hab => Yaml.ystr.inj hab)
  have hmem : p ∈ (build_graph m).names :=
    (Graph.hasNode_iff _ p).1 (hpar p hp)
  constructor
  · exact List.count_eq_one_of_mem (hndup hn0) hmem
  · intro hnot
    have h0 : (addNodesPass m ⟨[], []⟩).hasNode p = false := by
      rw [Graph.hasNode_eq_false_iff, pass1_names m hnd]
      exact hnot
    exact Graph.tagOf_append_hidden hne (fun q hq2 => (hq q hq2).1) p h0 (hpar p hp)

/-- C5 witness: two jobs extending the same template name that is not a
document key; its node occurs once and is hidden. -/
theorem C5_witness :
    ((YMap.cons "j1" (.ymap (.cons "extends" (.ystr "tpl") .nil))
      (.cons "j2" (.ymap (.cons "extends" (.ystr "tpl") .nil)) .nil)).keys.Nodup) ∧
    ((Yaml.ystr "tpl") ∈ referencedParents (.cons "j1" (.ymap (.cons "extends"
      (.ystr "tpl") .nil)) (.cons "j2" (.ymap (.cons "extends" (.ystr "tpl")
      .nil)) .nil))) ∧
    ((build_graph (.cons "j1" (.ymap (.cons "extends" (.ystr "tpl") .nil))
      (.cons "j2" (.ymap (.cons "extends" (.ystr "tpl") .nil))
      .nil))).names.count (.ystr "tpl") = 1 ∧
    ((Yaml.ystr "tpl") ∉ ((YMap.cons "j1" (.ymap (.cons "extends" (.ystr "tpl")
      .nil)) (.cons "j2" (.ymap (.cons "extends" (.ystr "tpl") .nil))
      .nil)).keys.map Yaml.ystr) →
      (build_graph (.cons "j1" (.ymap (.cons "extends" (.ystr "tpl") .nil))
        (.cons "j2" (.ymap (.cons "extends" (.ystr "tpl") .nil))
        .nil))).tagOf (.ystr "tpl") = some NodeType.hidden)) :=
  ⟨by decide, by decide,
    C5_extends_targets_in_graph _ (.ystr "tpl") (by decide) (by decide)⟩

/-- C6: with the root document at directory /a including local sub/b.yml,
and b.yml including local c.yml, resolution loads c.yml from /a/sub/c.yml
(relative to the directory of b.yml, the document that referenced it):
it succeeds for any filesystem providing those two paths even when /a/c.yml
does not exist. -/
theorem C6_nested_include_paths (fs : String → Option Yaml) (fuel : Nat)
    (hb : fs "/a/sub/b.yml" = some (.ymap (.cons "include"
      (.ymap (.cons "local" (.ystr "c.yml") .nil)) .nil)))
    (hc : fs "/a/sub/c.yml" = some (.ymap (.cons "cjob" .ynull .nil)))
    (_hwrong : fs "/a/c.yml" = none) :
    parse_includes fs (fuel + 3)
      (.ymap (.cons "include" (.ymap (.cons "local" (.ystr "sub/b.yml") .nil))
        .nil)) "/a" = .ok (.ymap (.cons "cjob" .ynull .nil)) := by
  have hpj1 : pathJoin "/a" "sub/b.yml" = "/a/sub/b.yml" := by decide
  have hdn1 : dirname "/a/sub/b.yml" = "/a/sub" := by decide
  have hpj2 : pathJoin "/a/sub" "c.yml" = "/a/sub/c.yml" := by decide
  show parse_includes fs (((fuel + 1) + 1) + 1) (.ymap _) "/a" = _
  simp only [parse_includes, processIncludes, normalizeInclude, YMap.get,
    YMap.update, YMap.set, YMap.del, YMap.dropInclude, hpj1, hdn1, hpj2, hb, hc,
    String.reduceEq, reduceIte]

/-- C6 witness: the path resolution instantiated on the filesystem holding
exactly /a/sub/b.yml and /a/sub/c.yml. -/
theorem C6_witness :
    ((fun p => if p = "/a/sub/b.yml" then some (Yaml.ymap (.cons "include"
        (.ymap (.cons "local" (.ystr "c.yml") .nil)) .nil))
      else if p = "/a/sub/c.yml" then some (.ymap (.cons "cjob" .ynull .nil))
      else none) "/a/sub/b.yml" = some (.ymap (.cons "include"
        (.ymap (.cons "local" (.ystr "c.yml") .nil)) .nil))) ∧
    ((fun p => if p = "/a/sub/b.yml" then some (Yaml.ymap (.cons "include"
        (.ymap (.cons "local" (.ystr "c.yml") .nil)) .nil))
      else if p = "/a/sub/c.yml" then some (.ymap (.cons "cjob" .ynull .nil))
      else none) "/a/c.yml" = none) ∧
    parse_includes
      (fun p => if p = "/a/sub/b.yml" then some (Yaml.ymap (.cons "include"
          (.ymap (.cons "local" (.ystr "c.yml") .nil)) .nil))
        else if p = "/a/sub/c.yml" then some (.ymap (.cons "cjob" .ynull .nil))
        else none) 3
      (.ymap (.cons "include" (.ymap (.cons "local" (.ystr "sub/b.yml") .nil))
        .nil)) "/a" = .ok (.ymap (.cons "cjob" .ynull .nil)) :=
  ⟨by decide, by decide,
    C6_nested_include_paths _ 0 (by decide) (by decide) (by decide)⟩

/-- C7: in a resolved document with distinct keys, a job whose extends value
is a sequence yields, for every parent listed (with multiplicity allowed),
a directed edge from that parent to the job labeled extends, and the edge
list never holds two edges with the same endpoints, so repeating a parent
reference leaves exactly one such edge. -/
theorem C7_multi_parent_edges (m : YMap) (c : String) (jc : YMap) (ext : Yaml)
    (ps : YSeq) (p : Yaml) (hnd : m.keys.Nodup)
    (hc : m.get c = some (.ymap jc)) (he : jc.get "extends" = some ext)
    (hn : normalizeExtends ext = some ps) (hp : p ∈ ps.toList) :
    (p, .ystr c, "extends") ∈ (build_graph m).edges ∧
    (build_graph m).edges.countP
      (fun e => decide (e.1 = p ∧ e.2.1 = .ystr c)) = 1 := by
  have hkeys : ∀ k ∈ m.keys, (addNodesPass m ⟨[], []⟩).hasNode (.ystr k) = true :=
    fun k hk => pass1_hasNode m hnd k hk
  obtain ⟨_, _, _, _, hmem, _, hpw⟩ := addEdgesPass_spec m _ hkeys
  have hpc : p ∈ parentsOf (.ymap jc) := by
    simp only [parentsOf, he, hn]
    exact hp
  have hedge := hmem c (.ymap jc) hc p hpc
  have hpw0 : (addNodesPass m ⟨[], []⟩).edges.Pairwise edgeEndsDistinct := by
    rw [addNodesPass_edges]
    exact List.Pairwise.nil
  exact ⟨hedge, countP_endpoints_eq_one _ p (.ystr c) (hpw hpw0) _ hedge rfl rfl⟩

/-- C7 witness: extends listing .a, .b and .a again on job c; both edges are
present and the duplicated parent reference yields a single edge. -/
theorem C7_witness :
    ((YMap.cons "c" (.ymap (.cons "extends" (.yseq (.cons (.ystr ".a")
      (.cons (.ystr ".b") (.cons (.ystr ".a") .nil)))) .nil)) .nil).keys.Nodup) ∧
    ((YMap.cons "c" (.ymap (.cons "extends" (.yseq (.cons (.ystr ".a")
      (.cons (.ystr ".b") (.cons (.ystr ".a") .nil)))) .nil)) .nil).get "c" =
      some (.ymap (.cons "extends" (.yseq (.cons (.ystr ".a")
        (.cons (.ystr ".b") (.cons (.ystr ".a") .nil)))) .nil))) ∧
    ((Yaml.ystr ".a", Yaml.ystr "c", "extends") ∈
      (build_graph (.cons "c" (.ymap (.cons "extends" (.yseq (.cons (.ystr ".a")
        (.cons (.ystr ".b") (.cons (.ystr ".a") .nil)))) .nil)) .nil)).edges ∧
    (build_graph (.cons "c" (.ymap (.cons "extends" (.yseq (.cons (.ystr ".a")
      (.cons (.ystr ".b") (.cons (.ystr ".a") .nil)))) .nil)) .nil)).edges.countP
      (fun e => decide (e.1 = .ystr ".a" ∧ e.2.1 = .ystr "c")) = 1) :=
  ⟨by decide, by decide,
    C7_multi_parent_edges _ "c" (.cons "extends" (.yseq (.cons (.ystr ".a")
        (.cons (.ystr ".b") (.cons (.ystr ".a") .nil)))) .nil)
      (.yseq (.cons (.ystr ".a") (.cons (.ystr ".b") (.cons (.ystr ".a") .nil))))
      (.cons (.ystr ".a") (.cons (.ystr ".b") (.cons (.ystr ".a") .nil)))
      (.ystr ".a")
      (by decide) (by decide) (by decide) (by decide) (by decide)⟩

/-- C8: resolving a mapping document with no include key returns it
unchanged, and resolving any non-mapping input returns it unchanged
(pass-through, not an error). -/
theorem C8_no_include_identity (fs : String → Option Yaml) (fuel : Nat)
    (m : YMap) (v : Yaml) (base : String)
    (hm : m.get "include" = none) (hv : v.isMap = false) :
    parse_includes fs (fuel + 1) (.ymap m) base = .ok (.ymap m) ∧
    parse_includes fs (fuel + 1) v base = .ok v :=
  ⟨parse_includes_no_include fs fuel m base hm,
    parse_includes_not_map fs fuel v base hv⟩

/-- C8 witness: identity on a one-job mapping without include and
pass-through on a scalar. -/
theorem C8_witness :
    ((YMap.cons "a" .ynull .nil).get "include" = none) ∧
    (Yaml.yint 3).isMap = false ∧
    (parse_includes (fun _ => none) 1 (.ymap (.cons "a" .ynull .nil)) "." =
      .ok (.ymap (.cons "a" .ynull .nil)) ∧
    parse_includes (fun _ => none) 1 (.yint 3) "." = .ok (.yint 3)) :=
  ⟨by decide, by decide,
    C8_no_include_identity (fun _ => none) 0 (.cons "a" .ynull .nil) (.yint 3)
      "." (by decide) (by decide)⟩

/-- C9: when a single-entry include references a file that the filesystem
resolves to a non-mapping value, resolution fails at the merge step with the
AttributeError of iterating items over a non-mapping, an error distinct from
IncludeNotFound (the file was found; parse errors live below the modelled
filesystem interface). -/
theorem C9_nonmapping_include_fails_at_merge (fs : String → Option Yaml)
    (fuel : Nat) (m im : YMap) (base rel : String) (v : Yaml)
    (hinc : m.get "include" = some (.ymap im))
    (hl : im.get "local" = some (.ystr rel))
    (hf : fs (pathJoin base rel) = some v) (hv : v.isMap = false) :
    parse_includes fs (fuel + 2) (.ymap m) base =
      .error (.attributeErrorItems (pathJoin base rel)) ∧
    (∀ q, (ResolveError.attributeErrorItems (pathJoin base rel)) ≠
      .includeNotFound q) := by
  refine ⟨?_, fun q h => by cases h⟩
  show parse_includes fs ((fuel + 1) + 1) (.ymap m) base = _
  cases v with
  | ymap m2 => simp [Yaml.isMap] at hv
  | ystr s =>
    simp only [parse_includes, hinc, normalizeInclude, processIncludes, hl, hf]
  | yint n =>
    simp only [parse_includes, hinc, normalizeInclude, processIncludes, hl, hf]
  | ybool b =>
    simp only [parse_includes, hinc, normalizeInclude, processIncludes, hl, hf]
  | ynull =>
    simp only [parse_includes, hinc, normalizeInclude, processIncludes, hl, hf]
  | yseq l2 =>
    simp only [parse_includes, hinc, normalizeInclude, processIncludes, hl, hf]

/-- C9 witness: an include of e.yml whose content parses to null fails with
the items AttributeError at path ./e.yml. -/
theorem C9_witness :
    ((YMap.cons "include" (.ymap (.cons "local" (.ystr "e.yml") .nil)) .nil).get
      "include" = some (.ymap (.cons "local" (.ystr "e.yml") .nil))) ∧
    ((fun p => if p = "./e.yml" then some Yaml.ynull else none)
      (pathJoin "." "e.yml") = some .ynull) ∧
    (parse_includes (fun p => if p = "./e.yml" then some Yaml.ynull else none)
      2 (.ymap (.cons "include" (.ymap (.cons "local" (.ystr "e.yml") .nil))
        .nil)) "." = .error (.attributeErrorItems (pathJoin "." "e.yml")) ∧
    (∀ q, (ResolveError.attributeErrorItems (pathJoin "." "e.yml")) ≠
      .includeNotFound q)) :=
  ⟨by decide, by decide,
    C9_nonmapping_include_fails_at_merge
      (fun p => if p = "./e.yml" then some Yaml.ynull else none) 0
      (.cons "include" (.ymap (.cons "local" (.ystr "e.yml") .nil)) .nil)
      (.cons "local" (.ystr "e.yml") .nil) "." "e.yml" .ynull
      (by decide) (by decide) (by decide) (by decide)⟩

/-- C10: build_graph reads its input only: the state-passing embedding that
threads the document through every statement of both passes returns the
document unchanged alongside the same graph build_graph computes. -/
theorem C10_build_graph_reads_only (d : YMap) :
    build_graph_st d = (build_graph d, d) := by
  simp [build_graph_st, build_graph, addNodesPassSt_eq, addEdgesPassSt_eq]
